import Mathlib

/-!
Verification of the facebook-mcp-cli repository's batch transport, credential
lookup, listing output, identifier-list normalization, and multi-step upload
orchestration, as shallowly embedded Lean definitions translated from the
TypeScript sources (src/src/api.ts, src/cli/fbcli.ts, and the MCP server
module). Platform library calls (JSON.parse, URLSearchParams, fetch) are
modelled as explicit function parameters, since their internals are not part
of this repository; everything the repository itself computes is translated
directly.
-/

/-- A minimal JSON value type, standing for the dynamically typed `any`
JSON bodies the TypeScript code passes around. -/
inductive JsonVal where
  | str : String → JsonVal
  | num : Int → JsonVal
  | bool : Bool → JsonVal
  | null : JsonVal
  | arr : List JsonVal → JsonVal
  | obj : List (String × JsonVal) → JsonVal
deriving Repr

/-- JS property access `v.k` on a parsed JSON value: `none` models
`undefined` (key absent or receiver not an object). -/
def jget (k : String) : JsonVal → Option JsonVal
  | .obj kvs => (kvs.find? (fun p => p.1 == k)).map (·.2)
  | _ => none

/-- `isError` from cli/fbcli.ts:1264-1266:
`typeof res === "object" && res !== null && "error" in res`.
Of the JSON values, objects (and arrays) are JS objects; an array has an
`error` property only via its indices, never the string key, so only the
object case can test true. -/
def isError : JsonVal → Bool
  | .obj kvs => kvs.any (fun p => p.1 == "error")
  | _ => false

-- ## Batch transport (graphApiBatch, src/src/api.ts:51-94 = cli/fbcli.ts:1354-1397)

/-- `BATCH_LIMIT` from api.ts:33. -/
def BATCH_LIMIT : Nat := 50

/-- `BatchRequest` from api.ts:35-39; the optional `body` is a string-keyed
record of form fields. -/
structure BatchRequest where
  method : String
  relative_url : String
  body : Option (List (String × String))
deriving Repr

/-- One encoded entry of the serialized `batch` parameter (api.ts:60-69):
the form body has been URL-encoded to a string. -/
structure EncodedItem where
  method : String
  relative_url : String
  body : Option String
deriving Repr, DecidableEq

/-- One non-null slot of the raw composite response
(`{ code: number; body: string }`, api.ts:77). -/
structure RawItem where
  code : Nat
  body : String
deriving Repr, DecidableEq

/-- The `body` field of a `BatchResponse`: either a successfully re-decoded
JSON value, or the raw string passed through when the inner decode fails
(api.ts:82-89).  The synthetic timeout object of api.ts:81 is a `.json`. -/
inductive BatchBody where
  | json : JsonVal → BatchBody
  | raw : String → BatchBody
deriving Repr

/-- `BatchResponse` from api.ts:41-44. -/
structure BatchResponse where
  code : Nat
  body : BatchBody
deriving Repr

/-- Encoding of one chunk entry, api.ts:60-69.  `formEncode` stands for
`new URLSearchParams(r.body).toString()`, a platform library call. -/
def encodeItem (formEncode : List (String × String) → String)
    (r : BatchRequest) : EncodedItem :=
  { method := r.method, relative_url := r.relative_url,
    body := r.body.map formEncode }

/-- The per-slot fan-out of api.ts:79-90: a `null` slot becomes the synthetic
timeout result; a non-null slot's body string is decoded a second time by
`parse` (standing for `JSON.parse`), falling back to the raw string. -/
def normalizeSlot (parse : String → Option JsonVal) :
    Option RawItem → BatchResponse
  | none =>
      { code := 0, body := .json (.obj [("error", .str "Request timed out in batch")]) }
  | some item =>
      match parse item.body with
      | some v => { code := item.code, body := .json v }
      | none => { code := item.code, body := .raw item.body }

/-- The chunking loop of api.ts:58-59: `for (i = 0; i < len; i += 50)` with
`slice(i, i + 50)` yields the successive 50-element chunks. -/
def chunks50 (l : List BatchRequest) : List (List BatchRequest) :=
  match l with
  | [] => []
  | x :: xs => (x :: xs).take BATCH_LIMIT :: chunks50 ((x :: xs).drop BATCH_LIMIT)
termination_by l.length
decreasing_by
  simp [BATCH_LIMIT]
  omega

/-- The body of the chunk loop (api.ts:58-92): each chunk is encoded, sent as
one composite HTTP call (`net`, standing for the `fetch` of api.ts:76-77 and
returning the raw parallel array), and fanned back out slot by slot.  The
second component counts the composite HTTP calls issued. -/
def runChunks (formEncode : List (String × String) → String)
    (parse : String → Option JsonVal)
    (net : List EncodedItem → List (Option RawItem)) :
    List (List BatchRequest) → List BatchResponse × Nat
  | [] => ([], 0)
  | c :: cs =>
      let raw := net (c.map (encodeItem formEncode))
      let rest := runChunks formEncode parse net cs
      (raw.map (normalizeSlot parse) ++ rest.1, rest.2 + 1)

/-- `graphApiBatch` (api.ts:51-94): empty input short-circuits with no HTTP
call; otherwise the requests are processed chunk by chunk. -/
def graphApiBatch (formEncode : List (String × String) → String)
    (parse : String → Option JsonVal)
    (net : List EncodedItem → List (Option RawItem))
    (requests : List BatchRequest) : List BatchResponse × Nat :=
  if requests.length = 0 then ([], 0)
  else runChunks formEncode parse net (chunks50 requests)

-- ## Credential lookup and listing (cli/fbcli.ts:1304-1311, 1513-1521; MCP server)

/-- `PageAsset` from cli/fbcli.ts:1270-1275 (= `PageCredential` of the spec). -/
structure PageAsset where
  fb_page_id : String
  page_name : String
  display_name : String
  page_access_token : String
deriving Repr, DecidableEq

/-- JS `Array.prototype.join(sep)`. -/
def joinSep (sep : String) : List String → String
  | [] => ""
  | [s] => s
  | s :: t :: rest => s ++ sep ++ joinSep sep (t :: rest)

/-- `getPage` from cli/fbcli.ts:1304-1311.  `die` (print to stderr and exit
non-zero) is modelled as the `.error` branch of `Except`, carrying the
diagnostic message.  `assets.map(a => a.page_name).join(", ") || "(none)"`
falls back to `"(none)"` exactly when the join is the empty string. -/
def getPage (assets : List PageAsset) (name : String) : Except String PageAsset :=
  match assets.find? (fun a => a.page_name == name) with
  | some page => .ok page
  | none =>
      let joined := joinSep ", " (assets.map (·.page_name))
      let available := if joined == "" then "(none)" else joined
      .error ("Page '" ++ name ++ "' not found. Available: " ++ available)

/-- `page_name`s deduplicated keeping the first occurrence: the key order of
the JS `Map` built by the MCP server's `for (asset of assets) pages.set(...)`
loop (insertion order, first insertion fixes the position). -/
def firstDedup : List String → List String
  | [] => []
  | x :: xs => x :: firstDedup (xs.filter (fun y => y ≠ x))
termination_by l => l.length
decreasing_by
  exact Nat.lt_succ_of_le (List.length_filter_le _ _)

/-- `getPage` of the MCP server module (unnamed/part_000:21-28).  `pages` is a
JS `Map` filled by one `set` per asset, so a lookup returns the value most
recently set for the key: the last asset with that `page_name`.  `throw` is
modelled as the `.error` branch. -/
def mcpGetPage (assets : List PageAsset) (name : String) : Except String PageAsset :=
  match assets.reverse.find? (fun a => a.page_name == name) with
  | some page => .ok page
  | none =>
      let joined := joinSep ", " (firstDedup (assets.map (·.page_name)))
      let available := if joined == "" then "(none configured)" else joined
      .error ("Page '" ++ name ++ "' not found. Available pages: " ++ available)

/-- The record shape printed per page by the listing command: exactly the
fields `page_name`, `display_name`, `fb_page_id` — no token field exists in
this type. -/
structure PageSummary where
  page_name : String
  display_name : String
  fb_page_id : String
deriving Repr, DecidableEq

/-- The per-record projection of `cmdPages` (cli/fbcli.ts:1513-1521); the
`list_pages` MCP tool (unnamed/part_000:78-90) builds the identical object. -/
def summarize (a : PageAsset) : PageSummary :=
  { page_name := a.page_name, display_name := a.display_name, fb_page_id := a.fb_page_id }

/-- `cmdPages` (cli/fbcli.ts:1513-1521) = the `list_pages` tool body
(unnamed/part_000:78-90): map each asset to its three-field summary. -/
def cmdPages (assets : List PageAsset) : List PageSummary :=
  assets.map summarize

/-- Two credential records that agree on everything except possibly the
access token. -/
def TokenVariant (a b : PageAsset) : Prop :=
  a.fb_page_id = b.fb_page_id ∧ a.page_name = b.page_name ∧ a.display_name = b.display_name

-- ## Identifier-list normalization (cli/fbcli.ts:1503-1509, 1602-1617)

/-- The whitespace JS `String.prototype.trim` strips, restricted to the ASCII
range (the full JS set also has Unicode spaces, irrelevant to these inputs). -/
def jsWhitespace (c : Char) : Bool :=
  c == ' ' || c == '\t' || c == '\n' || c == '\r' || c == '\x0b' || c == '\x0c'

/-- JS `String.prototype.trim` on the character list: strip leading and
trailing whitespace. -/
def trimChars (l : List Char) : List Char :=
  ((l.dropWhile jsWhitespace).reverse.dropWhile jsWhitespace).reverse

/-- The two separator characters of the `/[,\n]+/` split in `resolveIds`. -/
def isIdDelim (c : Char) : Bool := c == ',' || c == '\n'

/-- Split a character list at every character satisfying `p` (JS
`String.prototype.split` with a single-character separator class). -/
def splitOnPred (p : Char → Bool) : List Char → List (List Char)
  | [] => [[]]
  | c :: cs =>
      let r := splitOnPred p cs
      if p c then [] :: r
      else
        match r with
        | [] => [[c]]
        | s :: rest => (c :: s) :: rest

/-- The split of `resolveIds` (cli/fbcli.ts:1508).  The source's `/[,\n]+/`
regex collapses runs of separators, which differs from this single-character
split only by extra empty segments; `resolveIds` immediately trims every
segment and filters out blanks, so the two splits give the same final list. -/
def splitOnDelims : List Char → List (List Char) :=
  splitOnPred isIdDelim

/-- The normalization pipeline of `resolveIds` (cli/fbcli.ts:1508):
`stdin.split(/[,\n]+/).map(s => s.trim()).filter(Boolean)` — JS `Boolean`
on a string is true exactly for nonempty strings. -/
def normalizeIdSegments (stdin : String) : List (List Char) :=
  ((splitOnDelims stdin.data).map trimChars).filter (fun s => !s.isEmpty)

/-- `resolveIds`' stdin branch (cli/fbcli.ts:1508): the normalized segments
re-joined with `","`. -/
def resolveIdsStdin (stdin : String) : String :=
  ⟨List.intercalate [','] (normalizeIdSegments stdin)⟩

/-- The segment list as strings. -/
def normalizeIdList (stdin : String) : List String :=
  (normalizeIdSegments stdin).map (⟨·⟩)

/-- The comma split of `cmdBulkHide` (cli/fbcli.ts:1603):
`ids.split(",").map(s => s.trim()).filter(Boolean)`. -/
def splitCommaIds (ids : String) : List String :=
  (((splitOnPred (fun c => c == ',') ids.data).map trimChars).filter
    (fun s => !s.isEmpty)).map (⟨·⟩)

-- ## Multi-step upload orchestrators (cli/fbcli.ts:1743-1779, 1789-1818; MCP server)

/-- The three HTTP calls of the 3-step reel / video-story flow, recorded as a
call trace. -/
inductive UploadStep where
  | init
  | upload
  | finish
deriving Repr, DecidableEq

/-- The shape of one `out(...)` result of the 3-step flow: the `step` tag of
an error output (`none` on the success path), the `video_id` field included
in the output if any, and the spread response body. -/
structure StepResult where
  step : Option String
  video_id : Option JsonVal
  body : JsonVal

/-- `cmdPublishReel` (cli/fbcli.ts:1743-1779).  The network is abstracted by
`env`, giving each step's JSON response; the returned list is the trace of
HTTP calls actually performed, in order.  Whether the upload goes through the
remote-URL or the local-file branch, exactly one `ruploadApi` call is made,
recorded as `.upload`. -/
def cmdPublishReel (env : UploadStep → JsonVal) : StepResult × List UploadStep :=
  let init := env .init
  if isError init then ({ step := some "init", video_id := none, body := init }, [.init])
  else
    let videoId := jget "video_id" init
    let upload := env .upload
    if isError upload then
      ({ step := some "upload", video_id := videoId, body := upload }, [.init, .upload])
    else
      let result := env .finish
      if isError result then
        ({ step := some "publish", video_id := videoId, body := result },
          [.init, .upload, .finish])
      else ({ step := none, video_id := none, body := result }, [.init, .upload, .finish])

/-- `cmdVideoStory` (cli/fbcli.ts:1789-1818): identical control flow to
`cmdPublishReel` (only endpoints and metadata params differ, which the
abstract `env` absorbs). -/
def cmdVideoStory (env : UploadStep → JsonVal) : StepResult × List UploadStep :=
  let init := env .init
  if isError init then ({ step := some "init", video_id := none, body := init }, [.init])
  else
    let videoId := jget "video_id" init
    let upload := env .upload
    if isError upload then
      ({ step := some "upload", video_id := videoId, body := upload }, [.init, .upload])
    else
      let result := env .finish
      if isError result then
        ({ step := some "publish", video_id := videoId, body := result },
          [.init, .upload, .finish])
      else ({ step := none, video_id := none, body := result }, [.init, .upload, .finish])

/-- C10: for the empty list of batch requests, `graphApiBatch` returns the
empty result list and issues zero composite HTTP calls. -/
theorem graphApiBatch_empty (fe : List (String × String) → String)
    (parse : String → Option JsonVal)
    (net : List EncodedItem → List (Option RawItem)) :
    graphApiBatch fe parse net [] = ([], 0) := rfl

/-- C6: in the CLI 3-step upload orchestrators, if init succeeds (no `error`
key) and the upload response carries an `error` key, the result is tagged
`step = "upload"` and contains the `video_id` obtained from the init
response, and the finish call is never made. -/
theorem cmdPublishReel_upload_error_preserves_video_id (env : UploadStep → JsonVal)
    (h1 : isError (env .init) = false) (h2 : isError (env .upload) = true) :
    cmdPublishReel env
      = ({ step := some "upload", video_id := jget "video_id" (env .init),
           body := env .upload }, [.init, .upload])
  ∧ cmdVideoStory env
      = ({ step := some "upload", video_id := jget "video_id" (env .init),
           body := env .upload }, [.init, .upload]) := by
  unfold cmdPublishReel cmdVideoStory
  simp [h1, h2]

/-- C6 witness: concrete init response with `video_id = "987"` and a failing
upload; the error result preserves that identifier. -/
theorem cmdPublishReel_upload_error_preserves_video_id_witness :
    (isError ((fun s => match s with
        | UploadStep.init => JsonVal.obj [("video_id", JsonVal.str "987")]
        | UploadStep.upload => JsonVal.obj [("error", JsonVal.str "bad")]
        | UploadStep.finish => JsonVal.null) UploadStep.init) = false
      ∧ isError ((fun s => match s with
        | UploadStep.init => JsonVal.obj [("video_id", JsonVal.str "987")]
        | UploadStep.upload => JsonVal.obj [("error", JsonVal.str "bad")]
        | UploadStep.finish => JsonVal.null) UploadStep.upload) = true)
  ∧ (cmdPublishReel (fun s => match s with
        | UploadStep.init => JsonVal.obj [("video_id", JsonVal.str "987")]
        | UploadStep.upload => JsonVal.obj [("error", JsonVal.str "bad")]
        | UploadStep.finish => JsonVal.null)
      = ({ step := some "upload",
           video_id := jget "video_id" (JsonVal.obj [("video_id", JsonVal.str "987")]),
           body := JsonVal.obj [("error", JsonVal.str "bad")] }, [.init, .upload])
    ∧ cmdVideoStory (fun s => match s with
        | UploadStep.init => JsonVal.obj [("video_id", JsonVal.str "987")]
        | UploadStep.upload => JsonVal.obj [("error", JsonVal.str "bad")]
        | UploadStep.finish => JsonVal.null)
      = ({ step := some "upload",
           video_id := jget "video_id" (JsonVal.obj [("video_id", JsonVal.str "987")]),
           body := JsonVal.obj [("error", JsonVal.str "bad")] }, [.init, .upload])) :=
  ⟨⟨rfl, rfl⟩, cmdPublishReel_upload_error_preserves_video_id _ rfl rfl⟩

/-- C3 (amended): a null batch-response slot is normalized to the synthetic
timeout result with `code = 0` and body `{error: "Request timed out in
batch"}` (the source's message, where the claim abbreviated it to
`"timed out"`); normalization is a total per-slot map, so a null slot never
aborts the remaining slots of its chunk, and the chunk loop continues with
the subsequent chunks regardless of slot contents. -/
theorem null_slot_normalization (parse : String → Option JsonVal) :
    normalizeSlot parse none
      = { code := 0,
          body := .json (.obj [("error", .str "Request timed out in batch")]) }
  ∧ (∀ l₁ l₂ : List (Option RawItem),
      (l₁ ++ none :: l₂).map (normalizeSlot parse)
        = l₁.map (normalizeSlot parse)
            ++ normalizeSlot parse none :: l₂.map (normalizeSlot parse))
  ∧ (∀ (fe : List (String × String) → String)
       (net : List EncodedItem → List (Option RawItem))
       (c : List BatchRequest) (cs : List (List BatchRequest)),
      (runChunks fe parse net (c :: cs)).1
        = (net (c.map (encodeItem fe))).map (normalizeSlot parse)
            ++ (runChunks fe parse net cs).1) :=
  ⟨rfl, fun l₁ l₂ => by simp, fun fe net c cs => rfl⟩

/-- C3 counterexample: at a concrete one-request batch whose composite
response is `[null]`, the normalized body is
`{error: "Request timed out in batch"}`, which is not the claimed
`{error: "timed out"}`. -/
theorem null_slot_body_not_timed_out :
    (graphApiBatch (fun _ => "") (fun _ => none) (fun _ => [none])
        [{ method := "GET", relative_url := "c1", body := none }]).1
      = [{ code := 0,
           body := .json (.obj [("error", .str "Request timed out in batch")]) }]
  ∧ JsonVal.obj [("error", JsonVal.str "Request timed out in batch")]
      ≠ JsonVal.obj [("error", JsonVal.str "timed out")] := by
  constructor
  · simp [graphApiBatch, chunks50, runChunks, normalizeSlot, BATCH_LIMIT]
  · intro h
    simp at h

/-- C4: for a non-null slot whose body string the inner JSON decode rejects,
the raw string is passed through unchanged, paired with the slot's code; the
per-slot map is total, so one slot's decode failure never fails the rest of
the batch. -/
theorem inner_decode_failure_passthrough (parse : String → Option JsonVal)
    (it : RawItem) (h : parse it.body = none) :
    normalizeSlot parse (some it) = { code := it.code, body := .raw it.body }
  ∧ ∀ l₁ l₂ : List (Option RawItem),
      (l₁ ++ some it :: l₂).map (normalizeSlot parse)
        = l₁.map (normalizeSlot parse)
            ++ { code := it.code, body := BatchBody.raw it.body }
                :: l₂.map (normalizeSlot parse) := by
  have h1 : normalizeSlot parse (some it)
      = { code := it.code, body := .raw it.body } := by
    simp [normalizeSlot, h]
  exact ⟨h1, fun l₁ l₂ => by simp [h1]⟩

/-- C4 witness: a parse that rejects everything passes the body string
`"not json"` through with its code `200`. -/
theorem inner_decode_failure_passthrough_witness :
    ((fun _ : String => (none : Option JsonVal)) "not json" = none)
  ∧ (normalizeSlot (fun _ => none) (some { code := 200, body := "not json" })
      = { code := 200, body := .raw "not json" }
    ∧ ∀ l₁ l₂ : List (Option RawItem),
      (l₁ ++ some { code := 200, body := "not json" } :: l₂).map
          (normalizeSlot (fun _ => none))
        = l₁.map (normalizeSlot (fun _ => none))
            ++ { code := 200, body := BatchBody.raw "not json" }
                :: l₂.map (normalizeSlot (fun _ => none))) :=
  ⟨rfl, inner_decode_failure_passthrough (fun _ => none)
    { code := 200, body := "not json" } rfl⟩

/-- C9: the CLI `getPage` resolves a duplicated slug to the first matching
record in array order (`Array.prototype.find` semantics). -/
theorem getPage_first_match (l₁ l₂ : List PageAsset) (a : PageAsset) (name : String)
    (ha : a.page_name = name) (h₁ : ∀ b ∈ l₁, b.page_name ≠ name) :
    getPage (l₁ ++ a :: l₂) name = .ok a := by
  unfold getPage
  have hfind : ∀ l : List PageAsset, (∀ b ∈ l, b.page_name ≠ name) →
      (l ++ a :: l₂).find? (fun b => b.page_name == name) = some a := by
    intro l hl
    induction l with
    | nil => exact List.find?_cons_of_pos _ (by simpa using ha)
    | cons b t ih =>
        rw [List.cons_append,
          List.find?_cons_of_neg _ (by simpa using hl b (List.mem_cons_self b t))]
        exact ih (fun x hx => hl x (List.mem_cons_of_mem b hx))
  rw [hfind l₁ h₁]

/-- C9 witness: two records share the slug `"shop"`; lookup returns the
first. -/
theorem getPage_first_match_witness :
    ((PageAsset.mk "1" "shop" "Shop A" "tok1").page_name = "shop"
      ∧ ∀ b ∈ ([] : List PageAsset), b.page_name ≠ "shop")
  ∧ getPage [PageAsset.mk "1" "shop" "Shop A" "tok1",
             PageAsset.mk "2" "shop" "Shop B" "tok2"] "shop"
      = .ok (PageAsset.mk "1" "shop" "Shop A" "tok1") :=
  ⟨⟨rfl, by simp⟩,
    getPage_first_match [] [PageAsset.mk "2" "shop" "Shop B" "tok2"]
      (PageAsset.mk "1" "shop" "Shop A" "tok1") "shop" rfl (by simp)⟩

-- Helper lemmas for the chunking analysis of graphApiBatch.

theorem chunks50_length (l : List BatchRequest) :
    (chunks50 l).length = (l.length + 49) / 50 := by
  induction l using chunks50.induct with
  | case1 => simp [chunks50]
  | case2 x xs ih =>
      rw [chunks50]
      simp only [List.length_cons, List.length_drop, BATCH_LIMIT] at *
      omega

theorem chunks50_sum_length (l : List BatchRequest) :
    ((chunks50 l).map List.length).sum = l.length := by
  induction l using chunks50.induct with
  | case1 => simp [chunks50]
  | case2 x xs ih =>
      rw [chunks50]
      simp only [List.map_cons, List.sum_cons, List.length_take, List.length_drop,
        List.length_cons, BATCH_LIMIT] at *
      omega

theorem runChunks_snd (fe : List (String × String) → String)
    (parse : String → Option JsonVal)
    (net : List EncodedItem → List (Option RawItem))
    (cs : List (List BatchRequest)) :
    (runChunks fe parse net cs).2 = cs.length := by
  induction cs with
  | nil => rfl
  | cons c cs ih => simp [runChunks, ih]

theorem runChunks_fst (fe : List (String × String) → String)
    (parse : String → Option JsonVal)
    (net : List EncodedItem → List (Option RawItem))
    (cs : List (List BatchRequest)) :
    (runChunks fe parse net cs).1
      = (cs.map (fun c =>
          (net (c.map (encodeItem fe))).map (normalizeSlot parse))).flatten := by
  induction cs with
  | nil => rfl
  | cons c cs ih => simp [runChunks, ih]

theorem chunks_flat_get (fe : List (String × String) → String)
    (parse : String → Option JsonVal)
    (net : List EncodedItem → List (Option RawItem))
    (hnet : ∀ b, (net b).length = b.length) :
    ∀ (l : List BatchRequest) (j : Nat), j < l.length →
      ∃ ck, (chunks50 l)[j / 50]? = some ck
        ∧ ck[j % 50]? = l[j]?
        ∧ (((chunks50 l).map (fun u =>
              (net (u.map (encodeItem fe))).map (normalizeSlot parse))).flatten)[j]?
            = ((net (ck.map (encodeItem fe)))[j % 50]?).map (normalizeSlot parse) := by
  intro l
  induction l using chunks50.induct with
  | case1 =>
      intro j hj
      simp at hj
  | case2 x xs ih =>
      intro j hj
      have hn : (x :: xs).length = xs.length + 1 := by simp
      have hlenA : ((net (((x :: xs).take BATCH_LIMIT).map (encodeItem fe))).map
          (normalizeSlot parse)).length = min BATCH_LIMIT (xs.length + 1) := by
        simp [hnet]
      rw [chunks50]
      by_cases hj50 : j < 50
      · have hdiv : j / 50 = 0 := by omega
        have hmod : j % 50 = j := by omega
        refine ⟨(x :: xs).take BATCH_LIMIT, by simp [hdiv], ?_, ?_⟩
        · rw [hmod, List.getElem?_take]
          simp [BATCH_LIMIT, hj50]
        · rw [List.map_cons, List.flatten_cons, List.getElem?_append, hlenA]
          have hjA : j < min BATCH_LIMIT (xs.length + 1) := by
            simp at hj
            simp [BATCH_LIMIT]
            omega
          rw [if_pos hjA, hmod, List.getElem?_map]
      · have h50 : 50 ≤ j := by omega
        have hgt : 50 < xs.length + 1 := by
          simp at hj
          omega
        have hj' : j - 50 < ((x :: xs).drop BATCH_LIMIT).length := by
          simp [BATCH_LIMIT]
          simp at hj
          omega
        obtain ⟨ck, hc1, hc2, hc3⟩ := ih (j - 50) hj'
        have hdiv : j / 50 = (j - 50) / 50 + 1 := by omega
        have hmod : j % 50 = (j - 50) % 50 := by omega
        refine ⟨ck, ?_, ?_, ?_⟩
        · rw [hdiv]
          simpa using hc1
        · rw [hmod, hc2, List.getElem?_drop]
          have : BATCH_LIMIT + (j - 50) = j := by
            simp [BATCH_LIMIT]
            omega
          rw [this]
        · rw [List.map_cons, List.flatten_cons, List.getElem?_append, hlenA]
          have hge : ¬ j < min BATCH_LIMIT (xs.length + 1) := by
            simp [BATCH_LIMIT]
            omega
          rw [if_neg hge, hmod]
          have : j - min BATCH_LIMIT (xs.length + 1) = j - 50 := by
            simp [BATCH_LIMIT]
            omega
          rw [this]
          exact hc3

/-- C1: for every request list of length N > 50 (with the remote returning a
parallel array per composite call, `hnet`), `graphApiBatch` issues exactly
⌈N/50⌉ = (N+49)/50 composite HTTP calls and returns exactly N results; the
result at position j is the normalized slot j % 50 of the composite response
for chunk j / 50, and that chunk's slot j % 50 is exactly input request j —
so result order matches input order within and across chunks. -/
theorem graphApiBatch_chunking (fe : List (String × String) → String)
    (parse : String → Option JsonVal)
    (net : List EncodedItem → List (Option RawItem))
    (requests : List BatchRequest)
    (hnet : ∀ b, (net b).length = b.length)
    (hN : 50 < requests.length) :
    (graphApiBatch fe parse net requests).2 = (requests.length + 49) / 50
  ∧ (graphApiBatch fe parse net requests).1.length = requests.length
  ∧ ∀ j, j < requests.length →
      ∃ chunk, (chunks50 requests)[j / 50]? = some chunk
        ∧ chunk[j % 50]? = requests[j]?
        ∧ ((graphApiBatch fe parse net requests).1)[j]?
            = ((net (chunk.map (encodeItem fe)))[j % 50]?).map (normalizeSlot parse) := by
  have hne : ¬ requests.length = 0 := by omega
  have hg : graphApiBatch fe parse net requests
      = runChunks fe parse net (chunks50 requests) := by
    simp [graphApiBatch, hne]
  refine ⟨?_, ?_, ?_⟩
  · rw [hg, runChunks_snd, chunks50_length]
  · rw [hg, runChunks_fst, List.length_flatten]
    have : ∀ c : List BatchRequest,
        ((net (c.map (encodeItem fe))).map (normalizeSlot parse)).length = c.length := by
      intro c
      simp [hnet]
    simp only [List.map_map]
    calc ((chunks50 requests).map ((fun c =>
            (net (c.map (encodeItem fe))).map (normalizeSlot parse)) · |>.length)).sum
        = ((chunks50 requests).map List.length).sum := by
          apply congrArg
          apply List.map_congr_left
          intro c _
          simp [this]
      _ = requests.length := chunks50_sum_length requests
  · intro j hj
    obtain ⟨ck, hc1, hc2, hc3⟩ := chunks_flat_get fe parse net hnet requests j hj
    exact ⟨ck, hc1, hc2, by rw [hg, runChunks_fst]; exact hc3⟩

/-- C1 witness: 51 identical requests with a degenerate parallel-array
network; the theorem's hypotheses hold concretely and the conclusion follows
by applying it. -/
theorem graphApiBatch_chunking_witness :
    ((∀ b : List EncodedItem, ((fun b : List EncodedItem =>
          b.map (fun _ => (none : Option RawItem))) b).length = b.length)
      ∧ 50 < (List.replicate 51
          ({ method := "GET", relative_url := "x", body := none } : BatchRequest)).length)
  ∧ ((graphApiBatch (fun _ => "") (fun _ => none)
        (fun b => b.map (fun _ => none))
        (List.replicate 51 { method := "GET", relative_url := "x", body := none })).2
        = ((List.replicate 51
            ({ method := "GET", relative_url := "x", body := none } : BatchRequest)).length
              + 49) / 50
    ∧ (graphApiBatch (fun _ => "") (fun _ => none)
        (fun b => b.map (fun _ => none))
        (List.replicate 51 { method := "GET", relative_url := "x", body := none })).1.length
        = (List.replicate 51
            ({ method := "GET", relative_url := "x", body := none } : BatchRequest)).length
    ∧ ∀ j, j < (List.replicate 51
          ({ method := "GET", relative_url := "x", body := none } : BatchRequest)).length →
        ∃ chunk, (chunks50 (List.replicate 51
            { method := "GET", relative_url := "x", body := none }))[j / 50]? = some chunk
          ∧ chunk[j % 50]? = (List.replicate 51
              ({ method := "GET", relative_url := "x", body := none } : BatchRequest))[j]?
          ∧ ((graphApiBatch (fun _ => "") (fun _ => none)
                (fun b => b.map (fun _ => none))
                (List.replicate 51
                  { method := "GET", relative_url := "x", body := none })).1)[j]?
              = (((fun b : List EncodedItem => b.map (fun _ => (none : Option RawItem)))
                  (chunk.map (encodeItem (fun _ => ""))))[j % 50]?).map
                    (normalizeSlot (fun _ => none))) :=
  ⟨⟨fun b => by simp, by simp⟩,
    graphApiBatch_chunking (fun _ => "") (fun _ => none)
      (fun b => b.map (fun _ => none))
      (List.replicate 51 { method := "GET", relative_url := "x", body := none })
      (fun b => by simp) (by simp)⟩

-- Helper lemmas for the credential lookup and the listing output.

theorem tokenVariant_map_names {l₁ l₂ : List PageAsset}
    (h : List.Forall₂ TokenVariant l₁ l₂) :
    l₁.map (·.page_name) = l₂.map (·.page_name) := by
  induction h with
  | nil => rfl
  | cons hab _ ih => simp [hab.2.1, ih]

theorem infix_append_left {a b c : List Char} (h : a <:+: c) : a <:+: b ++ c := by
  obtain ⟨s, t, rfl⟩ := h
  exact ⟨b ++ s, t, by simp⟩

theorem mem_joinSep_infix (x : String) (l : List String) (hx : x ∈ l) :
    x.data <:+: (joinSep ", " l).data := by
  induction l with
  | nil => simp at hx
  | cons s t ih =>
      cases t with
      | nil =>
          simp at hx
          subst hx
          exact List.infix_rfl
      | cons b bs =>
          rcases List.mem_cons.mp hx with hxs | hxt
          · subst hxs
            show x.data <:+: (x ++ ", " ++ joinSep ", " (b :: bs)).data
            rw [String.data_append, String.data_append]
            exact ((List.prefix_append _ _).trans
              (List.prefix_append _ _)).isInfix
          · have := ih hxt
            show x.data <:+: (s ++ ", " ++ joinSep ", " (b :: bs)).data
            rw [String.data_append, String.data_append]
            rw [List.append_assoc]
            exact infix_append_left (infix_append_left this)

/-- C7: the listing output (`cmdPages` in the CLI, identically the
`list_pages` MCP tool) has one `PageSummary` per configured record, carrying
exactly `page_name`, `display_name` and `fb_page_id` (the `PageSummary` type
has no token field), and the output is identical for any two credential lists
that differ only in their `page_access_token` fields. -/
theorem cmdPages_token_independence :
    (∀ assets : List PageAsset, (cmdPages assets).length = assets.length
      ∧ ∀ j : Nat, (cmdPages assets)[j]? = (assets[j]?).map (fun a =>
          { page_name := a.page_name, display_name := a.display_name,
            fb_page_id := a.fb_page_id }))
  ∧ ∀ assets₁ assets₂ : List PageAsset,
      List.Forall₂ TokenVariant assets₁ assets₂ →
        cmdPages assets₁ = cmdPages assets₂ := by
  constructor
  · intro assets
    refine ⟨by simp [cmdPages], ?_⟩
    intro j
    rw [cmdPages, List.getElem?_map]
    rfl
  · intro assets₁ assets₂ h
    induction h with
    | nil => rfl
    | cons hab _ ih =>
        simp only [cmdPages, List.map_cons] at *
        rw [ih]
        obtain ⟨h1, h2, h3⟩ := hab
        simp [summarize, h1, h2, h3]

/-- C7 witness: two one-record lists differing only in the token produce the
same listing. -/
theorem cmdPages_token_independence_witness :
    List.Forall₂ TokenVariant [PageAsset.mk "42" "shop" "My Shop" "tokA"]
      [PageAsset.mk "42" "shop" "My Shop" "tokB"]
  ∧ cmdPages [PageAsset.mk "42" "shop" "My Shop" "tokA"]
      = cmdPages [PageAsset.mk "42" "shop" "My Shop" "tokB"] := by
  have h : List.Forall₂ TokenVariant [PageAsset.mk "42" "shop" "My Shop" "tokA"]
      [PageAsset.mk "42" "shop" "My Shop" "tokB"] := by
    refine List.Forall₂.cons ⟨rfl, rfl, rfl⟩ List.Forall₂.nil
  exact ⟨h, cmdPages_token_independence.2 _ _ h⟩

theorem mem_firstDedup (x : String) : ∀ l : List String, x ∈ l → x ∈ firstDedup l := by
  intro l
  induction l using firstDedup.induct with
  | case1 =>
      intro h
      simp at h
  | case2 y ys ih =>
      intro hx
      rw [firstDedup]
      by_cases hxy : x = y
      · subst hxy
        exact List.mem_cons_self _ _
      · rcases List.mem_cons.mp hx with h | h
        · exact absurd h hxy
        · have hf : x ∈ ys.filter (fun z => z ≠ y) :=
            List.mem_filter.mpr ⟨h, by simp [hxy]⟩
          exact List.mem_cons_of_mem _ (ih hf)

/-- C5: resolving a slug present in the credential list (with a unique
match, as a well-formed configuration has) returns the exact matching record,
in both the CLI `getPage` and the MCP server's `getPage`; resolving an absent
slug fails, in both lookups, with an error message in which every configured
slug occurs, and that message is the same for any credential list differing
only in its access-token values (so no token value can influence, or appear
through, either diagnostic). -/
theorem getPage_spec (assets : List PageAsset) (name : String) :
    (∀ a, a ∈ assets → a.page_name = name →
        (∀ b, b ∈ assets → b.page_name = name → b = a) →
        getPage assets name = .ok a ∧ mcpGetPage assets name = .ok a)
  ∧ ((∀ a, a ∈ assets → a.page_name ≠ name) →
      (∃ msg, getPage assets name = .error msg
        ∧ (∀ a, a ∈ assets → a.page_name.data <:+: msg.data)
        ∧ ∀ assets₂, List.Forall₂ TokenVariant assets assets₂ →
            getPage assets₂ name = .error msg)
      ∧ (∃ msg, mcpGetPage assets name = .error msg
        ∧ (∀ a, a ∈ assets → a.page_name.data <:+: msg.data)
        ∧ ∀ assets₂, List.Forall₂ TokenVariant assets assets₂ →
            mcpGetPage assets₂ name = .error msg)) := by
  constructor
  · intro a ha hname huniq
    constructor
    · have hsome : (assets.find? (fun b => b.page_name == name)).isSome := by
        rw [List.find?_isSome]
        exact ⟨a, ha, by simp [hname]⟩
      obtain ⟨b, hb⟩ := Option.isSome_iff_exists.mp hsome
      have hba : b = a :=
        huniq b (List.mem_of_find?_eq_some hb) (by simpa using List.find?_some hb)
      rw [getPage, hb, hba]
    · have hsome : (assets.reverse.find? (fun b => b.page_name == name)).isSome := by
        rw [List.find?_isSome]
        exact ⟨a, by simpa using ha, by simp [hname]⟩
      obtain ⟨b, hb⟩ := Option.isSome_iff_exists.mp hsome
      have hbmem : b ∈ assets := by
        have := List.mem_of_find?_eq_some hb
        simpa using this
      have hba : b = a := huniq b hbmem (by simpa using List.find?_some hb)
      rw [mcpGetPage, hb, hba]
  · intro habsent
    constructor
    · have hnone : assets.find? (fun b => b.page_name == name) = none :=
        List.find?_eq_none.mpr (fun b hb => by simpa using habsent b hb)
      refine ⟨_, by rw [getPage, hnone], ?_, ?_⟩
      · intro a ha
        have hinf : a.page_name.data
            <:+: (joinSep ", " (assets.map (·.page_name))).data :=
          mem_joinSep_infix _ _ (List.mem_map_of_mem _ ha)
        by_cases hempty : joinSep ", " (assets.map (·.page_name)) == ""
        · have : a.page_name.data = [] := by
            have h0 : (joinSep ", " (assets.map (·.page_name))).data = [] := by
              have := eq_of_beq hempty
              rw [this]
            rw [h0] at hinf
            exact List.eq_nil_of_infix_nil hinf
          simp only [hempty, if_pos]
          rw [this]
          exact List.nil_infix
        · simp only [hempty, if_neg, Bool.false_eq_true, not_false_iff]
          rw [String.data_append]
          exact infix_append_left hinf
      · intro assets₂ hvar
        have hnames := tokenVariant_map_names hvar
        have habsent₂ : ∀ b ∈ assets₂, ¬(b.page_name == name) = true := by
          intro b hb
          have hbmem : b.page_name ∈ assets₂.map (·.page_name) :=
            List.mem_map_of_mem _ hb
          rw [← hnames] at hbmem
          obtain ⟨a, ha, hab⟩ := List.mem_map.mp hbmem
          simp only [beq_iff_eq]
          rw [← hab]
          exact habsent a ha
        have hnone₂ : assets₂.find? (fun b => b.page_name == name) = none :=
          List.find?_eq_none.mpr habsent₂
        rw [getPage, hnone₂, hnames]
    · have hnoneR : assets.reverse.find? (fun b => b.page_name == name) = none :=
        List.find?_eq_none.mpr (fun b hb => by
          simpa using habsent b (List.mem_reverse.mp hb))
      refine ⟨_, by rw [mcpGetPage, hnoneR], ?_, ?_⟩
      · intro a ha
        have hmemD : a.page_name ∈ firstDedup (assets.map (·.page_name)) :=
          mem_firstDedup _ _ (List.mem_map_of_mem _ ha)
        have hinf : a.page_name.data
            <:+: (joinSep ", " (firstDedup (assets.map (·.page_name)))).data :=
          mem_joinSep_infix _ _ hmemD
        by_cases hempty : joinSep ", " (firstDedup (assets.map (·.page_name))) == ""
        · have : a.page_name.data = [] := by
            have h0 : (joinSep ", "
                (firstDedup (assets.map (·.page_name)))).data = [] := by
              have := eq_of_beq hempty
              rw [this]
            rw [h0] at hinf
            exact List.eq_nil_of_infix_nil hinf
          simp only [hempty, if_pos]
          rw [this]
          exact List.nil_infix
        · simp only [hempty, if_neg, Bool.false_eq_true, not_false_iff]
          rw [String.data_append]
          exact infix_append_left hinf
      · intro assets₂ hvar
        have hnames := tokenVariant_map_names hvar
        have habsent₂ : ∀ b ∈ assets₂.reverse, ¬(b.page_name == name) = true := by
          intro b hb
          have hbmem : b.page_name ∈ assets₂.map (·.page_name) :=
            List.mem_map_of_mem _ (List.mem_reverse.mp hb)
          rw [← hnames] at hbmem
          obtain ⟨a, ha, hab⟩ := List.mem_map.mp hbmem
          simp only [beq_iff_eq]
          rw [← hab]
          exact habsent a ha
        have hnone₂ : assets₂.reverse.find? (fun b => b.page_name == name) = none :=
          List.find?_eq_none.mpr habsent₂
        rw [mcpGetPage, hnone₂, hnames]

/-- C5 witness: a one-record list resolves its own slug to the record in both
lookups, and an absent slug produces a token-independent diagnostic listing
the configured slug. -/
theorem getPage_spec_witness :
    (getPage [PageAsset.mk "42" "shop" "My Shop" "tokA"] "shop"
        = .ok (PageAsset.mk "42" "shop" "My Shop" "tokA")
      ∧ mcpGetPage [PageAsset.mk "42" "shop" "My Shop" "tokA"] "shop"
        = .ok (PageAsset.mk "42" "shop" "My Shop" "tokA"))
  ∧ ((∃ msg, getPage [PageAsset.mk "42" "shop" "My Shop" "tokA"] "nope" = .error msg
      ∧ (∀ a, a ∈ [PageAsset.mk "42" "shop" "My Shop" "tokA"] →
          a.page_name.data <:+: msg.data)
      ∧ ∀ assets₂,
          List.Forall₂ TokenVariant [PageAsset.mk "42" "shop" "My Shop" "tokA"] assets₂ →
            getPage assets₂ "nope" = .error msg)
    ∧ (∃ msg, mcpGetPage [PageAsset.mk "42" "shop" "My Shop" "tokA"] "nope" = .error msg
      ∧ (∀ a, a ∈ [PageAsset.mk "42" "shop" "My Shop" "tokA"] →
          a.page_name.data <:+: msg.data)
      ∧ ∀ assets₂,
          List.Forall₂ TokenVariant [PageAsset.mk "42" "shop" "My Shop" "tokA"] assets₂ →
            mcpGetPage assets₂ "nope" = .error msg)) := by
  constructor
  · exact (getPage_spec [PageAsset.mk "42" "shop" "My Shop" "tokA"] "shop").1
      (PageAsset.mk "42" "shop" "My Shop" "tokA") (by simp) rfl
      (by intro b hb _; simpa using hb)
  · exact (getPage_spec [PageAsset.mk "42" "shop" "My Shop" "tokA"] "nope").2
      (by intro a ha; simp at ha; subst ha; decide)

-- Helper lemmas for the identifier-list normalization.

theorem dropWhile_head_false (p : Char → Bool) (l : List Char) (x : Char)
    (r : List Char) (h : List.dropWhile p l = x :: r) : p x = false := by
  induction l with
  | nil => simp [List.dropWhile] at h
  | cons y ys ih =>
      rw [List.dropWhile_cons] at h
      by_cases hy : p y
      · rw [if_pos hy] at h
        exact ih h
      · rw [if_neg hy] at h
        cases h
        simpa using hy

theorem dropWhile_dropWhile (p : Char → Bool) (l : List Char) :
    List.dropWhile p (List.dropWhile p l) = List.dropWhile p l := by
  induction l with
  | nil => rfl
  | cons y ys ih =>
      rw [List.dropWhile_cons]
      by_cases hy : p y
      · rw [if_pos hy]
        exact ih
      · rw [if_neg hy, List.dropWhile_cons, if_neg hy]

theorem dropWhile_of_isPrefix (p : Char → Bool) (a l : List Char)
    (hpre : a <+: List.dropWhile p l) : List.dropWhile p a = a := by
  cases ha : a with
  | nil => rfl
  | cons x r =>
      obtain ⟨t, ht⟩ := hpre
      rw [ha] at ht
      have hx : p x = false := dropWhile_head_false p l x (r ++ t) (by rw [← ht]; simp)
      rw [List.dropWhile_cons, if_neg (by simp [hx])]

theorem trimChars_idem (l : List Char) : trimChars (trimChars l) = trimChars l := by
  unfold trimChars
  set A := l.dropWhile jsWhitespace with hA
  set B := A.reverse.dropWhile jsWhitespace with hB
  have h1 : List.dropWhile jsWhitespace B.reverse = B.reverse := by
    apply dropWhile_of_isPrefix jsWhitespace B.reverse l
    have hsuf : B <:+ A.reverse := List.dropWhile_suffix _
    obtain ⟨t, ht⟩ := hsuf
    refine ⟨t.reverse, ?_⟩
    have : A = B.reverse ++ t.reverse := by
      have := congrArg List.reverse ht
      simpa using this.symm
    rw [hA] at this
    exact this.symm
  rw [h1, List.reverse_reverse, dropWhile_dropWhile]

/-- C8: the identifier-list normalization of `resolveIds` splits the
secondary-channel input on commas and newlines, trims each segment, and drops
blank segments: concretely, `"a, b,\nc"` normalizes to `["a", "b", "c"]`
(both as the segment list and end-to-end through the comma re-join of
`resolveIds` and the comma re-split of `cmdBulkHide`), and in general every
produced segment is nonempty and already trimmed. -/
theorem resolveIds_normalization :
    normalizeIdList "a, b,\nc" = ["a", "b", "c"]
  ∧ resolveIdsStdin "a, b,\nc" = "a,b,c"
  ∧ splitCommaIds (resolveIdsStdin "a, b,\nc") = ["a", "b", "c"]
  ∧ ∀ s : String, ∀ e ∈ normalizeIdSegments s, e ≠ [] ∧ trimChars e = e := by
  refine ⟨by decide, by decide, by decide, ?_⟩
  intro s e he
  unfold normalizeIdSegments at he
  have hmem := List.mem_of_mem_filter he
  have hne : e ≠ [] := by
    have := List.of_mem_filter he
    simpa using this
  obtain ⟨seg, _, hseg⟩ := List.mem_map.mp hmem
  exact ⟨hne, by rw [← hseg, trimChars_idem]⟩

/-- C8 witness: the general segment property applied to the concrete
secondary-channel input `" x ,y"` and its first segment `"x"`. -/
theorem resolveIds_normalization_witness :
    ['x'] ∈ normalizeIdSegments " x ,y"
  ∧ (['x'] ≠ [] ∧ trimChars ['x'] = ['x']) :=
  ⟨by decide, resolveIds_normalization.2.2.2 " x ,y" ['x'] (by decide)⟩
